import Mathlib

/-
Verification of the bandit task engine of `src/experiments/task.py`
(class `Task`): configuration resolution, trial generation (`Task.setup`),
the iteration protocol (`__iter__` / `__next__` / `__len__` / `__getitem__`
/ `block`), and trial processing (`Task.process`).

Modelling conventions:
  * Python floats are modelled as rationals (ℚ); the claims only involve
    order comparisons and 0/1 flag values, which ℚ represents exactly.
  * The four cue slots and four position slots are `Fin 4`, matching the
    hard-coded width-4 arrays of the source.
  * The ambient numpy global random state is modelled as an explicit
    stream `Rng` threaded through every randomized operation: a list of
    uniform draws (for `np.random.uniform`) and a list of naturals driving
    the selection steps of `np.random.choice` (when a stream runs dry it
    yields a default value; the claims never depend on the distribution).
  * Python exceptions are modelled with `Except PErr`; the constructors
    name the Python exception class raised at the corresponding place.
-/

namespace Bandit

/-- Python exception kinds that the modelled code paths can raise. -/
inductive PErr where
  | keyError        -- KeyError (missing dict key)
  | indexError      -- IndexError (sequence index out of range)
  | typeError       -- TypeError (e.g. arithmetic on None)
  | valueError      -- ValueError (raised by np.random.choice validation)
  | assertionError  -- AssertionError (the failed assert in process)
deriving DecidableEq, Repr

/-- Explicit model of the process-wide numpy random state: a stream of
uniform values in [0,1) and a stream of naturals used to drive the
without-replacement selection of `np.random.choice`. -/
structure Rng where
  us : List ℚ
  ns : List ℕ
deriving DecidableEq, Repr

/-- Pop one uniform draw (models one value of `np.random.uniform(0,1)`). -/
def Rng.popU (rng : Rng) : ℚ × Rng :=
  match rng.us with
  | [] => (0, rng)
  | u :: rest => (u, { rng with us := rest })

/-- Pop one selection driver (used by the `np.random.choice` model). -/
def Rng.popN (rng : Rng) : ℕ × Rng :=
  match rng.ns with
  | [] => (0, rng)
  | n :: rest => (n, { rng with ns := rest })

/-- Models `np.random.uniform(0, 1, n)`: a batch of `n` uniform draws. -/
def Rng.uniforms : ℕ → Rng → List ℚ × Rng
  | 0, rng => ([], rng)
  | n + 1, rng =>
    let (u, rng1) := rng.popU
    let (rest, rng2) := Rng.uniforms n rng1
    (u :: rest, rng2)

/-- Python index normalization for a length-`len` axis: a negative index
counts from the end. -/
def pyNorm (len : ℕ) (i : Int) : Int :=
  if i < 0 then i + (len : Int) else i

/-- Python / numpy indexing of a list: a negative index counts from the
end; out-of-range yields `none` (an `IndexError` at the call site). -/
def pyGet (xs : List α) (i : Int) : Option α :=
  if 0 ≤ pyNorm xs.length i then xs.get? (pyNorm xs.length i).toNat else none

/-- Python / numpy indexing into a width-4 axis (the `cog`/`mot`/`ass`
axes of a trial): negative indices wrap, out-of-range is `none`. -/
def pyIdx4 (i : Int) : Option (Fin 4) :=
  if h : 0 ≤ pyNorm 4 i ∧ pyNorm 4 i < 4 then
    some ⟨(pyNorm 4 i).toNat, by omega⟩
  else none

/-- Python indexing of a length-`n` sequence, returning the resolved
non-negative index. -/
def pyNatIdx (n : ℕ) (i : Int) : Option ℕ :=
  if 0 ≤ pyNorm n i ∧ pyNorm n i < (n : Int) then some (pyNorm n i).toNat else none

/-- Turn an optional value into an `Except`, raising `e` on `none`. -/
def ofOption (e : PErr) : Option α → Except PErr α
  | none => .error e
  | some a => .ok a

/-- A boolean flag stored into a float record field. -/
def boolQ (b : Bool) : ℚ := if b then 1 else 0

/-- Python's `max` on a (nonempty) list of floats. -/
def listMax (l : List ℚ) : ℚ := l.foldl max (l.headD 0)

/-- One block definition of the JSON configuration: `n_trial`, `cue`
weights, `pos` weights, `rwd` reward probabilities, optional `n_cue`. -/
structure BlockCfg where
  n_trial : ℕ
  cue : List ℚ
  pos : List ℚ
  rwd : List ℚ
  n_cue : Option ℕ
deriving DecidableEq, Repr

/-- The parsed JSON parameters: the ordered `session` list of block names
and the named block definitions (the rest of the JSON object). -/
structure Params where
  session : List String
  blocks : List (String × BlockCfg)
deriving DecidableEq, Repr

/-- Dictionary lookup `parameters[name]`. -/
def lookupBlock (dict : List (String × BlockCfg)) (name : String) : Option BlockCfg :=
  (dict.find? (fun kv => kv.1 == name)).map (·.2)

/-- The loop `for name in _["session"]: blocks.append(_[name])`; a missing
key raises `KeyError`. -/
def resolveList (dict : List (String × BlockCfg)) : List String → Except PErr (List BlockCfg)
  | [] => .ok []
  | name :: rest =>
    match lookupBlock dict name with
    | none => .error .keyError
    | some b => (resolveList dict rest).map (b :: ·)

/-- Resolve the session's block definitions, in session order. -/
def resolveBlocks (p : Params) : Except PErr (List BlockCfg) :=
  resolveList p.blocks p.session

/-- The `start, stop` accumulation loop of `Task.setup`: the per-block
half-open `[start, stop)` ranges and the total trial count `n`. -/
def computeBlocks (bs : List BlockCfg) : List (ℕ × ℕ) × ℕ :=
  bs.foldl (fun acc b => (acc.1 ++ [(acc.2, acc.2 + b.n_trial)], acc.2 + b.n_trial)) ([], 0)

/-- `P = w / np.sum(w)`. When the weights sum to zero the numpy division
produces NaN probabilities (a warning, not an exception); `none` is the
NaN marker, rejected later by `np.random.choice`. -/
def normWeights (w : List ℚ) : Option (List ℚ) :=
  if w.sum = 0 then none else some (w.map (· / w.sum))

/-- The sequential selection loop of `np.random.choice(..., replace=False)`:
draws `size` distinct indices, each among the not-yet-chosen indices of
positive probability.  Models the library's guarantee (distinct indices
with positive probability, in draw order); the concrete index picked at
each step is driven by the `Rng` stream. -/
def drawLoop (popSize : ℕ) (p : List ℚ) : ℕ → List ℕ → Rng → Except PErr (List ℕ × Rng)
  | 0, chosen, rng => .ok (chosen, rng)
  | size + 1, chosen, rng =>
    let avail := (List.range popSize).filter (fun i => decide (0 < p.getD i 0 ∧ i ∉ chosen))
    if avail.length = 0 then .error .valueError
    else
      let (nv, rng1) := rng.popN
      let i := avail.getD (nv % avail.length) 0
      drawLoop popSize p size (chosen ++ [i]) rng1

/-- Models `np.random.choice(range(popSize), size=size, replace=False, p=P)`
with `P` the normalized weights (`none` = NaN from a zero-sum
normalization).  The guards mirror numpy's validation errors: NaN
probabilities, `a and p must have same size`, negative probabilities,
sample larger than population, fewer non-zero entries in `p` than
`size`. -/
def npChoice (popSize size : ℕ) : Option (List ℚ) → Rng → Except PErr (List ℕ × Rng)
  | none, _ => .error .valueError
  | some p, rng =>
    if p.length ≠ popSize then .error .valueError
    else if ∃ x ∈ p, x < 0 then .error .valueError
    else if popSize < size then .error .valueError
    else if (p.filter (fun x => decide (0 < x))).length < size then .error .valueError
    else drawLoop popSize p size [] rng

/-- One trial of the task: the four arrays `mot`, `cog`, `ass`, `rwd` and
the pre-drawn random threshold `rnd` (field order as in the numpy dtype). -/
structure Trial where
  mot : Fin 4 → ℚ
  cog : Fin 4 → ℚ
  ass : Fin 4 → Fin 4 → ℚ
  rwd : Fin 4 → ℚ
  rnd : ℚ
deriving DecidableEq

/-- A zero-filled trial row (`np.zeros` of the trial dtype). -/
def zeroTrial : Trial :=
  { mot := fun _ => 0, cog := fun _ => 0, ass := fun _ _ => 0, rwd := fun _ => 0, rnd := 0 }

/-- The fancy assignment `v[idxs] = 1` on a width-4 float vector. -/
def setVec (v : Fin 4 → ℚ) (idxs : List (Fin 4)) : Fin 4 → ℚ :=
  idxs.foldl (fun w i => fun j => if j = i then 1 else w j) v

/-- The loop `for c, p in zip(cues_idx, pos_idx): ass[c, p] = 1`. -/
def setAss (m : Fin 4 → Fin 4 → ℚ) (pairs : List (Fin 4 × Fin 4)) : Fin 4 → Fin 4 → ℚ :=
  pairs.foldl (fun w cp => fun r c => if r = cp.1 ∧ c = cp.2 then 1 else w r c) m

/-- Check the sampled indices against the width-4 axes (a sampled index
beyond the array width would be a numpy `IndexError`). -/
def toFin4 : List ℕ → Option (List (Fin 4))
  | [] => some []
  | n :: rest =>
    if h : n < 4 then (toFin4 rest).map (⟨n, h⟩ :: ·)
    else none

/-- The broadcast `trial["rwd"][...] = block["rwd"]` into a width-4 float
vector: a length-4 list is copied, a length-1 list is broadcast, any
other length is a numpy broadcast `ValueError`. -/
def bcast4 (w : List ℚ) : Option (Fin 4 → ℚ) :=
  if w.length = 4 then some (fun i => w.getD i 0)
  else if w.length = 1 then some (fun _ => w.getD 0 0)
  else none

/-- The per-trial array updates of `Task.setup`'s inner loop, applied to
the current (zero-initialized, `rnd`-filled) trial row `tr0`. -/
def mkTrial (tr0 : Trial) (cs ps : List ℕ) (rwd : List ℚ) : Except PErr Trial :=
  match toFin4 cs, toFin4 ps with
  | some cf, some pf =>
    match bcast4 rwd with
    | some rw =>
      .ok { mot := setVec tr0.mot pf, cog := setVec tr0.cog cf,
            ass := setAss tr0.ass (cf.zip pf), rwd := rw, rnd := tr0.rnd }
    | none => .error .valueError
  | _, _ => .error .indexError

/-- One iteration of `Task.setup`'s trial loop: sample `n_cue` distinct
cue indices and `n_cue` distinct position indices (both over
`range(len(block.cue))`, as in the source) and fill the trial row. -/
def buildTrial (b : BlockCfg) (tr0 : Trial) (rng : Rng) : Except PErr (Trial × Rng) := do
  let (cs, rng1) ← npChoice b.cue.length (b.n_cue.getD 2) (normWeights b.cue) rng
  let (ps, rng2) ← npChoice b.cue.length (b.n_cue.getD 2) (normWeights b.pos) rng1
  let tr ← mkTrial tr0 cs ps b.rwd
  pure (tr, rng2)

/-- The `for i in range(block["n_trial"])` loop: build the block's trials
at consecutive indices of the trial array. -/
def buildBlockTrials (b : BlockCfg) : ℕ → List Trial → ℕ → Rng → Except PErr (List Trial × ℕ × Rng)
  | 0, trials, index, rng => .ok (trials, index, rng)
  | nLeft + 1, trials, index, rng => do
    let tr0 ← ofOption .indexError (trials.get? index)
    let (tr, rng1) ← buildTrial b tr0 rng
    buildBlockTrials b nLeft (trials.set index tr) (index + 1) rng1

/-- The `for block in blocks` loop of `Task.setup`. -/
def buildBlocks : List BlockCfg → List Trial → ℕ → Rng → Except PErr (List Trial × Rng)
  | [], trials, _, rng => .ok (trials, rng)
  | b :: rest, trials, index, rng => do
    let (trials1, index1, rng1) ← buildBlockTrials b b.n_trial trials index rng
    buildBlocks rest trials1 index1 rng1

/-- The external model snapshot read by `Task.process`: a `value` vector
and the two named connection weight vectors (`CTX:cog -> CTX:ass` and
`CTX:cog -> STR:cog` in the source's record dtype). -/
structure ModelState where
  value : Fin 4 → ℚ
  wCtxAss : Fin 4 → ℚ
  wStrCog : Fin 4 → ℚ
deriving DecidableEq

/-- One record row (the record dtype of `Task.setup`): all fields float,
`wCtxAss`/`wStrCog` standing for the two `CTX:cog -> ...` fields. -/
structure Record where
  choice : ℚ
  cue : ℚ
  best : ℚ
  valid : ℚ
  RT : ℚ
  reward : ℚ
  value : Fin 4 → ℚ
  wCtxAss : Fin 4 → ℚ
  wStrCog : Fin 4 → ℚ
deriving DecidableEq

/-- A zero-filled record row. -/
def zeroRecord : Record :=
  { choice := 0, cue := 0, best := 0, valid := 0, RT := 0, reward := 0,
    value := fun _ => 0, wCtxAss := fun _ => 0, wStrCog := fun _ => 0 }

/-- The `Task` object's state: iteration cursor fields, the parsed
parameters, the per-block index ranges, the trial array and the record
array. -/
structure Task where
  index : Option Int
  index_start : Option Int
  index_stop : Option Int
  parameters : Params
  blocks : List (ℕ × ℕ)
  trials : List Trial
  records : List Record
deriving DecidableEq

/-- `Task.setup`: resolve the session's blocks, compute the block ranges
and total trial count, allocate zeroed trial and record arrays, draw all
`rnd` values in one batch, then build the trials block by block. -/
def Task.setup (t : Task) (rng : Rng) : Except PErr (Task × Rng) := do
  let bs ← resolveBlocks t.parameters
  let (blockRanges, n) := computeBlocks bs
  let trials0 := List.replicate n zeroTrial
  let records0 := List.replicate n zeroRecord
  let (us, rng1) := Rng.uniforms n rng
  let trials1 := List.zipWith (fun tr u => { tr with rnd := u }) trials0 us
  let (trials2, rng2) ← buildBlocks bs trials1 0 rng1
  pure ({ t with blocks := blockRanges, trials := trials2, records := records0 }, rng2)

/-- The state of a freshly constructed `Task` object before `setup` runs
(cursor fields `None`, arrays empty). -/
def Task.mk0 (p : Params) : Task :=
  { index := none, index_start := none, index_stop := none,
    parameters := p, blocks := [], trials := [], records := [] }

/-- `Task.__init__`: store the parameters and run `setup`. -/
def Task.init (p : Params) (rng : Rng) : Except PErr (Task × Rng) :=
  (Task.mk0 p).setup rng

/-- `Task.block`: scope the iteration cursor to one block's range
(`index_start = start - 1`, `index_stop = stop`, `index = index_start`).
`none` models the `IndexError` of `self.blocks[index]`. -/
def Task.block (t : Task) (i : Int) : Option Task :=
  match pyGet t.blocks i with
  | none => none
  | some se =>
    some { t with index_start := some ((se.1 : Int) - 1),
                  index_stop := some (se.2 : Int),
                  index := some ((se.1 : Int) - 1) }

/-- `Task.__len__`: the length of the trial array. -/
def Task.len (t : Task) : ℕ := t.trials.length

/-- `Task.__getitem__`: random access into the trial array. -/
def Task.getitem (t : Task) (i : Int) : Option Trial := pyGet t.trials i

/-- `Task.__iter__`: when the cursor is unset, re-run `setup` and reset
the cursor to the start of the full sequence; otherwise leave the task
unchanged. -/
def Task.iter (t : Task) (rng : Rng) : Except PErr (Task × Rng) :=
  match t.index_start with
  | some _ => .ok (t, rng)
  | none => do
    let (t1, rng1) ← t.setup rng
    pure ({ t1 with index_start := some (-1),
                    index_stop := some (t1.trials.length : Int),
                    index := some (-1) }, rng1)

/-- `Task.__next__`: advance the cursor; inside the range yield the
current trial, past it clear the cursor fields and signal
`StopIteration` (the `none` trial).  `typeError` models `None + 1`. -/
def Task.next (t : Task) : Except PErr (Option Trial × Task) :=
  match t.index, t.index_stop with
  | some i, some stop =>
    let i1 := i + 1
    if i1 < stop then
      match pyGet t.trials i1 with
      | some tr => .ok (some tr, { t with index := some i1 })
      | none => .error .indexError
    else
      .ok (none, { t with index := none, index_start := none, index_stop := none })
  | _, _ => .error .typeError

/-- The `next`-until-`StopIteration` loop of a `for trial in task` pass;
`fuel` is an upper bound on the number of steps (chosen large enough by
`Task.runFor`). -/
def iterLoop : ℕ → Task → List Trial → Except PErr (List Trial × Task)
  | 0, _, _ => .error .typeError
  | fuel + 1, t, acc =>
    match t.next with
    | .error e => .error e
    | .ok (some tr, t1) => iterLoop fuel t1 (acc ++ [tr])
    | .ok (none, t1) => .ok (acc, t1)

/-- One full `for trial in task` pass: `__iter__` once, then `__next__`
until the end-of-sequence signal; returns the visited trials in order. -/
def Task.runFor (t : Task) (rng : Rng) : Except PErr (List Trial × Task × Rng) := do
  let (t1, rng1) ← t.iter rng
  let fuel := match t1.index, t1.index_stop with
    | some i, some stop => (stop - i).toNat + 1
    | _, _ => 1
  let (l, t2) ← iterLoop fuel t1 []
  pure (l, t2, rng1)

/-- The choice-evaluation half of `Task.process`: the `choice < 0` branch
returns the defaults; otherwise look up validity, the associated cue
(`assert len(cues) == 1`), the best flag and the stochastic reward.
Returns `(cue, valid, best, reward)`. -/
def processChoice (trial : Trial) (choice : Int) : Except PErr (Int × Bool × Bool × ℚ) :=
  if choice < 0 then
    .ok (-1, false, false, 0)
  else do
    let j ← ofOption .indexError (pyIdx4 choice)
    let valid := decide (trial.mot j = 1)
    match (List.finRange 4).filter (fun r => decide (trial.ass r j ≠ 0)) with
    | [c] =>
      let presentRwd := fun k : Fin 4 => trial.cog k * trial.rwd k
      let best := decide (listMax ((List.finRange 4).map presentRwd) = presentRwd c)
      let reward : ℚ := if trial.rnd < trial.rwd c then 1 else 0
      .ok ((c.val : Int), valid, best, reward)
    | _ => .error .assertionError

/-- The record-writing half of `Task.process`: overwrite the six scalar
fields of the record at resolved cursor slot `j`, and the model snapshot
fields when a model is supplied. -/
def recordAt (t : Task) (j : ℕ) (choice cue : Int) (valid best : Bool)
    (RT reward : ℚ) (model : Option ModelState) : Task :=
  let r0 := t.records.getD j zeroRecord
  let r1 := { r0 with choice := (choice : ℚ), cue := (cue : ℚ),
                      best := boolQ best, valid := boolQ valid,
                      RT := RT, reward := reward }
  let r2 := match model with
    | none => r1
    | some m => { r1 with value := m.value, wCtxAss := m.wCtxAss, wStrCog := m.wStrCog }
  { t with records := t.records.set j r2 }

/-- `Task.process`: evaluate the choice against the trial, then record
everything at the current cursor index; returns `(reward, cue, best)`
alongside the updated task.  (The `debug` branch of the source only
prints running means and is omitted.) -/
def Task.process (t : Task) (trial : Trial) (choice : Int) (RT : ℚ)
    (model : Option ModelState) : Except PErr (Task × ℚ × Int × Bool) := do
  let (cue, valid, best, reward) ← processChoice trial choice
  let i ← ofOption .typeError t.index
  let j ← ofOption .indexError (pyNatIdx t.records.length i)
  pure (recordAt t j choice cue valid best RT reward model, (reward, cue, best))


/-- The conditions under which the `np.random.choice` call on a weight
vector `w` with sample size `size` raises (NaN probabilities from a
zero-sum normalization, negative probabilities, sample larger than the
population, or fewer positive-probability slots than `size`). -/
def choiceFailCond (w : List ℚ) (size : ℕ) : Prop :=
  normWeights w = none ∨
    ∃ p, normWeights w = some p ∧
      ((∃ x ∈ p, x < 0) ∨ w.length < size ∨
        (p.filter (fun x => decide (0 < x))).length < size)

/-- A block whose first trial's cue sampling necessarily raises: it has
at least one trial and a failing cue-weight vector. -/
def blockFaulty (b : BlockCfg) : Prop :=
  1 ≤ b.n_trial ∧ choiceFailCond b.cue (b.n_cue.getD 2)

/-- The number of ones (entries equal to 1) in a trial's association
matrix `ass`. -/
def onesCount (tr : Trial) : ℕ :=
  ((Finset.univ : Finset (Fin 4 × Fin 4)).filter (fun rc => tr.ass rc.1 rc.2 = 1)).card

/-- Whether an `Except` computation succeeded (no exception raised). -/
def exceptOk : Except PErr α → Bool
  | .ok _ => true
  | .error _ => false

/-! ### Concrete inputs used by witnesses and counterexamples -/

/-- A well-formed example block: four equally weighted cue and position
slots, the reward vector of the spec's worked example, one trial. -/
def egBlock : BlockCfg :=
  { n_trial := 1, cue := [1, 1, 1, 1], pos := [1, 1, 1, 1],
    rwd := [4/5, 1/2, 1/5, 1/2], n_cue := none }

/-- An example configuration: a single session block `A`. -/
def egParams : Params := { session := ["A"], blocks := [("A", egBlock)] }

/-- The worked example trial of the spec (§8): cues 0 and 2 present, cue 0
at position 1 and cue 2 at position 2, `rnd = 0.3`. -/
def egTrial : Trial :=
  { cog := fun i => [1, 0, 1, 0].getD i 0,
    mot := fun i => [0, 1, 1, 0].getD i 0,
    ass := fun r c => if (r.val, c.val) = (0, 1) ∨ (r.val, c.val) = (2, 2) then 1 else 0,
    rwd := fun i => [4/5, 1/2, 1/5, 1/2].getD i 0,
    rnd := 3/10 }

/-- A task state holding the example trial with the cursor on it. -/
def egTask : Task :=
  { index := some 0, index_start := some (-1), index_stop := some 1,
    parameters := egParams, blocks := [(0, 1)],
    trials := [egTrial], records := [zeroRecord] }

/-- A concrete random stream: one uniform draw and four selection steps. -/
def egRng : Rng := { us := [3/10], ns := [2, 0, 1, 1] }

/-- The concrete outcome of processing the example trial at choice 1. -/
def egOut1 : Task × ℚ × Int × Bool :=
  match egTask.process egTrial 1 0 none with
  | .ok v => v
  | .error _ => (egTask, 0, 0, false)

/-- The concrete trial built by `buildTrial` on `egBlock` with `egRng`. -/
def egBuild : Trial × Rng :=
  match buildTrial egBlock zeroTrial egRng with
  | .ok v => v
  | .error _ => (zeroTrial, egRng)

/-- The concrete result of `Task.setup` on `egParams` with `egRng`. -/
def egSetupRes : Task × Rng :=
  match (Task.mk0 egParams).setup egRng with
  | .ok v => v
  | .error _ => (Task.mk0 egParams, egRng)

/-- A random stream with three distinct uniform draws, so that the
construction-time `rnd`, the first pass's and the second pass's differ. -/
def c1rng : Rng := { us := [0, 1/2, 1/4], ns := [] }

/-- Construct a task and run two complete `for trial in task` passes,
returning the two visited trial sequences. -/
def c1run : Except PErr (List Trial × List Trial) := do
  let (t0, r0) ← Task.init egParams c1rng
  let (l1, t1, r1) ← t0.runFor r0
  let (l2, _, _) ← t1.runFor r1
  pure (l1, l2)

/-- `true` iff both passes succeed and visit different trial sequences. -/
def c1differs : Bool :=
  match c1run with
  | .ok v => decide (v.1 ≠ v.2)
  | .error _ => false

/-- A configuration whose only block has an all-zero (malformed) cue
weight vector but zero trials. -/
def c3params : Params :=
  { session := ["Z"],
    blocks := [("Z", { n_trial := 0, cue := [0, 0, 0, 0], pos := [1, 1, 1, 1],
                       rwd := [1/2, 1/2, 1/2, 1/2], n_cue := none })] }

/-- A configuration whose session references a missing block name. -/
def c3missing : Params := { session := ["X"], blocks := [] }

/-- A task state with two block ranges over five trials, before scoping. -/
def c10task : Task :=
  { index := none, index_start := none, index_stop := none,
    parameters := egParams, blocks := [(0, 2), (2, 5)],
    trials := List.replicate 5 zeroTrial, records := [] }

/-- The concrete result of scoping `c10task` to block 1. -/
def c10t1 : Task :=
  match c10task.block 1 with
  | some t => t
  | none => c10task

/-! ### Helper lemmas: list maximum, vector updates, index conversions -/

lemma foldl_max_init (l : List ℚ) : ∀ acc : ℚ, acc ≤ l.foldl max acc := by
  induction l with
  | nil => intro acc; exact le_refl acc
  | cons b t ih =>
    intro acc
    exact le_trans (le_max_left acc b) (ih (max acc b))

lemma foldl_max_of_mem (l : List ℚ) : ∀ x ∈ l, ∀ acc : ℚ, x ≤ l.foldl max acc := by
  induction l with
  | nil => intro x hx; cases hx
  | cons b t ih =>
    intro x hx acc
    rcases List.mem_cons.mp hx with rfl | h
    · exact le_trans (le_max_right acc x) (foldl_max_init t _)
    · exact ih x h _

lemma le_listMax (l : List ℚ) (x : ℚ) (hx : x ∈ l) : x ≤ listMax l :=
  foldl_max_of_mem l x hx _

lemma foldl_max_mem (l : List ℚ) : ∀ acc : ℚ, l.foldl max acc = acc ∨ l.foldl max acc ∈ l := by
  induction l with
  | nil => intro acc; left; rfl
  | cons b t ih =>
    intro acc
    rw [List.foldl_cons]
    rcases ih (max acc b) with h | h
    · rw [h]
      rcases max_choice acc b with hm | hm
      · left; exact hm
      · right; rw [hm]; exact List.mem_cons_self b t
    · right; exact List.mem_cons_of_mem b h

lemma listMax_mem (l : List ℚ) (hl : l ≠ []) : listMax l ∈ l := by
  unfold listMax
  rcases foldl_max_mem l (l.headD 0) with h | h
  · rw [h]
    cases l with
    | nil => exact absurd rfl hl
    | cons b t => exact List.mem_cons_self b t
  · exact h

lemma setVec_apply (v : Fin 4 → ℚ) (idxs : List (Fin 4)) (j : Fin 4) :
    setVec v idxs j = if j ∈ idxs then 1 else v j := by
  induction idxs generalizing v with
  | nil => simp [setVec]
  | cons i rest ih =>
    show setVec (fun j => if j = i then 1 else v j) rest j = _
    rw [ih]
    by_cases hj : j ∈ rest
    · rw [if_pos hj, if_pos (List.mem_cons_of_mem i hj)]
    · rw [if_neg hj]
      by_cases hji : j = i
      · rw [if_pos hji, if_pos (by rw [hji]; exact List.mem_cons_self i rest)]
      · rw [if_neg hji, if_neg (by simp [List.mem_cons, hji, hj])]

lemma setAss_apply (m : Fin 4 → Fin 4 → ℚ) (pairs : List (Fin 4 × Fin 4)) (r c : Fin 4) :
    setAss m pairs r c = if (r, c) ∈ pairs then 1 else m r c := by
  induction pairs generalizing m with
  | nil => simp [setAss]
  | cons cp rest ih =>
    show setAss (fun r c => if r = cp.1 ∧ c = cp.2 then 1 else m r c) rest r c = _
    rw [ih]
    by_cases hj : (r, c) ∈ rest
    · rw [if_pos hj, if_pos (List.mem_cons_of_mem cp hj)]
    · rw [if_neg hj]
      by_cases hcp : (r, c) = cp
      · rw [if_pos (by exact ⟨congrArg Prod.fst hcp, congrArg Prod.snd hcp⟩),
            if_pos (by rw [hcp]; exact List.mem_cons_self cp rest)]
      · rw [if_neg (fun hrc => hcp (Prod.ext hrc.1 hrc.2)),
            if_neg (by simp [List.mem_cons, hcp, hj])]

lemma toFin4_map_val (cs : List ℕ) (cf : List (Fin 4)) (h : toFin4 cs = some cf) :
    cf.map Fin.val = cs := by
  induction cs generalizing cf with
  | nil =>
    simp only [toFin4, Option.some.injEq] at h
    subst h; rfl
  | cons n rest ih =>
    by_cases hn : n < 4
    · simp only [toFin4, dif_pos hn] at h
      cases hrest : toFin4 rest with
      | none => rw [hrest] at h; simp at h
      | some cf1 =>
        rw [hrest] at h
        simp only [Option.map_some', Option.some.injEq] at h
        subst h
        simp [ih cf1 hrest]
    · simp [toFin4, dif_neg hn] at h

lemma toFin4_length (cs : List ℕ) (cf : List (Fin 4)) (h : toFin4 cs = some cf) :
    cf.length = cs.length := by
  have := toFin4_map_val cs cf h
  rw [← this, List.length_map]

lemma toFin4_nodup (cs : List ℕ) (cf : List (Fin 4)) (h : toFin4 cs = some cf)
    (hn : cs.Nodup) : cf.Nodup := by
  rw [← toFin4_map_val cs cf h] at hn
  exact hn.of_map Fin.val

lemma pyNatIdx_lt (n : ℕ) (i : Int) (j : ℕ) (h : pyNatIdx n i = some j) : j < n := by
  unfold pyNatIdx at h
  by_cases hc : 0 ≤ pyNorm n i ∧ pyNorm n i < (n : Int)
  · rw [if_pos hc] at h
    simp only [Option.some.injEq] at h
    omega
  · rw [if_neg hc] at h
    cases h


/-! ### Sampling invariants and inversion lemmas -/

@[simp] lemma exceptBind_ok (a : α) (f : α → Except PErr β) :
    (Except.ok a >>= f : Except PErr β) = f a := rfl

@[simp] lemma exceptBind_err (e : PErr) (f : α → Except PErr β) :
    (Except.error e >>= f : Except PErr β) = .error e := rfl

@[simp] lemma exceptPure (a : α) : (pure a : Except PErr α) = .ok a := rfl

lemma drawLoop_ok (popSize : ℕ) (p : List ℚ) :
    ∀ (k : ℕ) (chosen : List ℕ) (rng : Rng) (out : List ℕ) (rng1 : Rng),
      drawLoop popSize p k chosen rng = .ok (out, rng1) →
      out.length = chosen.length + k ∧ (chosen.Nodup → out.Nodup) ∧
        (∀ x ∈ out, x ∈ chosen ∨ x < popSize) := by
  intro k
  induction k with
  | zero =>
    intro chosen rng out rng1 h
    simp only [drawLoop, Except.ok.injEq, Prod.mk.injEq] at h
    obtain ⟨rfl, rfl⟩ := h
    exact ⟨rfl, fun hn => hn, fun x hx => Or.inl hx⟩
  | succ n ih =>
    intro chosen rng out rng1 h
    simp only [drawLoop] at h
    split at h
    · cases h
    · rename_i hne
      have hlen : (nv : ℕ) → nv % _ < _ := fun nv => Nat.mod_lt _ (Nat.pos_of_ne_zero hne)
      set avail := (List.range popSize).filter
        (fun i => decide (0 < p.getD i 0 ∧ i ∉ chosen)) with havail
      set i0 := avail.getD (rng.popN.1 % avail.length) 0 with hi0
      have hmem : i0 ∈ avail := by
        rw [hi0, List.getD_eq_getElem?_getD, List.getElem?_eq_getElem (hlen rng.popN.1)]
        exact List.getElem_mem _
      have hprops : 0 < p.getD i0 0 ∧ i0 ∉ chosen := by
        have := List.mem_filter.mp hmem
        exact of_decide_eq_true this.2
      have hsize : i0 < popSize := by
        have := List.mem_filter.mp hmem
        exact List.mem_range.mp this.1
      obtain ⟨hl, hnd, hm⟩ := ih (chosen ++ [i0]) rng.popN.2 out rng1 h
      refine ⟨by simp at hl; omega, ?_, ?_⟩
      · intro hcn
        refine hnd ?_
        simp [List.nodup_append, hcn, hprops.2]
      · intro x hx
        rcases hm x hx with hx1 | hx1
        · rcases List.mem_append.mp hx1 with hx2 | hx2
          · exact Or.inl hx2
          · right
            have : x = i0 := by simpa using hx2
            omega
        · exact Or.inr hx1

lemma npChoice_ok (popSize size : ℕ) (P : Option (List ℚ)) (rng : Rng)
    (cs : List ℕ) (rng1 : Rng) (h : npChoice popSize size P rng = .ok (cs, rng1)) :
    cs.length = size ∧ cs.Nodup ∧ ∀ x ∈ cs, x < popSize := by
  cases P with
  | none => cases h
  | some p =>
    simp only [npChoice] at h
    split_ifs at h
    obtain ⟨hl, hnd, hm⟩ := drawLoop_ok popSize p size [] rng cs rng1 h
    refine ⟨by simpa using hl, hnd List.nodup_nil, fun x hx => ?_⟩
    rcases hm x hx with hx1 | hx1
    · cases hx1
    · exact hx1

lemma normWeights_len (w : List ℚ) (p : List ℚ) (h : normWeights w = some p) :
    p.length = w.length := by
  unfold normWeights at h
  split at h
  · cases h
  · simp only [Option.some.injEq] at h
    rw [← h, List.length_map]

lemma mkTrial_inv (tr0 : Trial) (cs ps : List ℕ) (rwd : List ℚ) (tr : Trial)
    (h : mkTrial tr0 cs ps rwd = .ok tr) :
    ∃ cf pf rw, toFin4 cs = some cf ∧ toFin4 ps = some pf ∧ bcast4 rwd = some rw ∧
      tr = { mot := setVec tr0.mot pf, cog := setVec tr0.cog cf,
             ass := setAss tr0.ass (cf.zip pf), rwd := rw, rnd := tr0.rnd } := by
  unfold mkTrial at h
  cases hcf : toFin4 cs with
  | none => rw [hcf] at h; cases h
  | some cf =>
    cases hpf : toFin4 ps with
    | none => rw [hcf, hpf] at h; cases h
    | some pf =>
      rw [hcf, hpf] at h
      cases hrw : bcast4 rwd with
      | none => rw [hrw] at h; cases h
      | some rw =>
        rw [hrw] at h
        simp only [Except.ok.injEq] at h
        exact ⟨cf, pf, rw, rfl, rfl, rfl, h.symm⟩

lemma buildTrial_inv (b : BlockCfg) (tr0 : Trial) (rng : Rng) (tr : Trial) (rng2 : Rng)
    (h : buildTrial b tr0 rng = .ok (tr, rng2)) :
    ∃ cs ps rng1 cf pf rw,
      npChoice b.cue.length (b.n_cue.getD 2) (normWeights b.cue) rng = .ok (cs, rng1) ∧
      npChoice b.cue.length (b.n_cue.getD 2) (normWeights b.pos) rng1 = .ok (ps, rng2) ∧
      toFin4 cs = some cf ∧ toFin4 ps = some pf ∧ bcast4 b.rwd = some rw ∧
      tr = { mot := setVec tr0.mot pf, cog := setVec tr0.cog cf,
             ass := setAss tr0.ass (cf.zip pf), rwd := rw, rnd := tr0.rnd } := by
  unfold buildTrial at h
  cases h1 : npChoice b.cue.length (b.n_cue.getD 2) (normWeights b.cue) rng with
  | error e => simp only [h1, exceptBind_err] at h; cases h
  | ok v1 =>
    obtain ⟨cs, rng1⟩ := v1
    rw [h1] at h
    simp only [exceptBind_ok] at h
    cases h2 : npChoice b.cue.length (b.n_cue.getD 2) (normWeights b.pos) rng1 with
    | error e => simp only [h2, exceptBind_err] at h; cases h
    | ok v2 =>
      obtain ⟨ps, rng2'⟩ := v2
      simp only [h2, exceptBind_ok] at h
      cases h3 : mkTrial tr0 cs ps b.rwd with
      | error e => simp only [h3, exceptBind_err] at h; cases h
      | ok tr1 =>
        simp only [h3, exceptBind_ok, exceptPure, Except.ok.injEq, Prod.mk.injEq] at h
        obtain ⟨rfl, rfl⟩ := h
        obtain ⟨cf, pf, rw, hcf, hpf, hrw, htr⟩ := mkTrial_inv tr0 cs ps b.rwd tr1 h3
        exact ⟨cs, ps, rng1, cf, pf, rw, rfl, h2, hcf, hpf, hrw, htr⟩


/-! ### Equations for `processChoice` and `Task.process` -/

lemma processChoice_neg (trial : Trial) (choice : Int) (h : choice < 0) :
    processChoice trial choice = .ok (-1, false, false, 0) := by
  simp [processChoice, h]

lemma processChoice_pos (trial : Trial) (choice : Int) (j c : Fin 4)
    (h0 : ¬ choice < 0) (hj : pyIdx4 choice = some j)
    (hc : (List.finRange 4).filter (fun r => decide (trial.ass r j ≠ 0)) = [c]) :
    processChoice trial choice =
      .ok ((c.val : Int), decide (trial.mot j = 1),
        decide (listMax ((List.finRange 4).map (fun k => trial.cog k * trial.rwd k)) =
          trial.cog c * trial.rwd c),
        if trial.rnd < trial.rwd c then (1 : ℚ) else 0) := by
  unfold processChoice
  rw [if_neg h0]
  simp only [hj, ofOption, exceptBind_ok, hc]

lemma processChoice_assert (trial : Trial) (choice : Int) (j : Fin 4)
    (h0 : ¬ choice < 0) (hj : pyIdx4 choice = some j)
    (hc : (List.finRange 4).filter (fun r => decide (trial.ass r j ≠ 0)) = []) :
    processChoice trial choice = .error .assertionError := by
  unfold processChoice
  rw [if_neg h0]
  simp only [hj, ofOption, exceptBind_ok, hc]

lemma process_eq (t : Task) (trial : Trial) (choice : Int) (RT : ℚ)
    (model : Option ModelState) (cue : Int) (valid best : Bool) (reward : ℚ)
    (i : Int) (j : ℕ)
    (hpc : processChoice trial choice = .ok (cue, valid, best, reward))
    (hi : t.index = some i) (hj : pyNatIdx t.records.length i = some j) :
    t.process trial choice RT model =
      .ok (recordAt t j choice cue valid best RT reward model, (reward, cue, best)) := by
  unfold Task.process
  simp only [hpc, exceptBind_ok, hi, hj, ofOption, exceptPure]

lemma process_err (t : Task) (trial : Trial) (choice : Int) (RT : ℚ)
    (model : Option ModelState) (e : PErr)
    (hpc : processChoice trial choice = .error e) :
    t.process trial choice RT model = .error e := by
  unfold Task.process
  simp only [hpc, exceptBind_err]

/-! ### Length bookkeeping of `Task.setup` -/

lemma uniforms_length (n : ℕ) : ∀ rng : Rng, (Rng.uniforms n rng).1.length = n := by
  induction n with
  | zero => intro rng; rfl
  | succ m ih =>
    intro rng
    simp only [Rng.uniforms, List.length_cons, ih]

lemma computeBlocks_total (bs : List BlockCfg) :
    (computeBlocks bs).2 = (bs.map BlockCfg.n_trial).sum := by
  suffices h : ∀ acc : List (ℕ × ℕ) × ℕ,
      (bs.foldl (fun acc b => (acc.1 ++ [(acc.2, acc.2 + b.n_trial)], acc.2 + b.n_trial)) acc).2 =
        acc.2 + (bs.map BlockCfg.n_trial).sum by
    simpa using h ([], 0)
  induction bs with
  | nil => intro acc; simp
  | cons b rest ih =>
    intro acc
    simp only [List.foldl_cons, List.map_cons, List.sum_cons, ih]
    omega

lemma buildBlockTrials_length (b : BlockCfg) :
    ∀ (k : ℕ) (trials : List Trial) (index : ℕ) (rng : Rng)
      (trials1 : List Trial) (index1 : ℕ) (rng1 : Rng),
      buildBlockTrials b k trials index rng = .ok (trials1, index1, rng1) →
      trials1.length = trials.length := by
  intro k
  induction k with
  | zero =>
    intro trials index rng trials1 index1 rng1 h
    simp only [buildBlockTrials, Except.ok.injEq, Prod.mk.injEq] at h
    rw [← h.1]
  | succ m ih =>
    intro trials index rng trials1 index1 rng1 h
    simp only [buildBlockTrials] at h
    cases hg : trials.get? index with
    | none => simp only [hg, ofOption, exceptBind_err] at h; cases h
    | some tr0 =>
      simp only [hg, ofOption, exceptBind_ok] at h
      cases hb : buildTrial b tr0 rng with
      | error e => simp only [hb, exceptBind_err] at h; cases h
      | ok v =>
        obtain ⟨tr, rng2⟩ := v
        simp only [hb, exceptBind_ok] at h
        have := ih (trials.set index tr) (index + 1) rng2 trials1 index1 rng1 h
        rw [this, List.length_set]

lemma buildBlocks_length :
    ∀ (bs : List BlockCfg) (trials : List Trial) (index : ℕ) (rng : Rng)
      (trials1 : List Trial) (rng1 : Rng),
      buildBlocks bs trials index rng = .ok (trials1, rng1) →
      trials1.length = trials.length := by
  intro bs
  induction bs with
  | nil =>
    intro trials index rng trials1 rng1 h
    simp only [buildBlocks, Except.ok.injEq, Prod.mk.injEq] at h
    rw [← h.1]
  | cons b rest ih =>
    intro trials index rng trials1 rng1 h
    simp only [buildBlocks] at h
    cases hbt : buildBlockTrials b b.n_trial trials index rng with
    | error e => simp only [hbt, exceptBind_err] at h; cases h
    | ok v =>
      obtain ⟨trials2, index2, rng2⟩ := v
      simp only [hbt, exceptBind_ok] at h
      rw [ih trials2 index2 rng2 trials1 rng1 h,
          buildBlockTrials_length b b.n_trial trials index rng trials2 index2 rng2 hbt]


/-! ### Failure conditions of configuration loading -/

lemma npChoice_fail (w : List ℚ) (size : ℕ) (hc : choiceFailCond w size) (rng : Rng) :
    ∃ e, npChoice w.length size (normWeights w) rng = .error e := by
  rcases hc with hnone | ⟨p, hnw, hp⟩
  · exact ⟨.valueError, by rw [hnone]; simp [npChoice]⟩
  · have hlen : p.length = w.length := normWeights_len w p hnw
    rw [hnw]
    simp only [npChoice]
    split_ifs with h1 h2 h3 h4
    · exact ⟨.valueError, rfl⟩
    · exact ⟨.valueError, rfl⟩
    · exact ⟨.valueError, rfl⟩
    · exact ⟨.valueError, rfl⟩
    · exfalso
      rcases hp with hneg | hsize | hfew
      · exact h2 hneg
      · exact h3 (by omega)
      · exact h4 hfew

lemma buildTrial_fail (b : BlockCfg) (tr0 : Trial) (rng : Rng)
    (hc : choiceFailCond b.cue (b.n_cue.getD 2)) :
    ∃ e, buildTrial b tr0 rng = .error e := by
  obtain ⟨e, he⟩ := npChoice_fail b.cue (b.n_cue.getD 2) hc rng
  exact ⟨e, by unfold buildTrial; simp only [he, exceptBind_err]⟩

lemma buildBlockTrials_fail (b : BlockCfg) (hf : blockFaulty b)
    (trials : List Trial) (index : ℕ) (rng : Rng) :
    ∃ e, buildBlockTrials b b.n_trial trials index rng = .error e := by
  obtain ⟨hn, hc⟩ := hf
  obtain ⟨m, hm⟩ : ∃ m, b.n_trial = m + 1 := ⟨b.n_trial - 1, by omega⟩
  rw [hm]
  cases hg : trials.get? index with
  | none => exact ⟨.indexError, by simp only [buildBlockTrials, hg, ofOption, exceptBind_err]⟩
  | some tr0 =>
    obtain ⟨e, he⟩ := buildTrial_fail b tr0 rng hc
    exact ⟨e, by simp only [buildBlockTrials, hg, ofOption, exceptBind_ok, he, exceptBind_err]⟩

lemma buildBlocks_fail :
    ∀ (bs : List BlockCfg), (∃ b ∈ bs, blockFaulty b) →
      ∀ (trials : List Trial) (index : ℕ) (rng : Rng),
        ∃ e, buildBlocks bs trials index rng = .error e := by
  intro bs
  induction bs with
  | nil =>
    intro h
    rcases h with ⟨b, hb, _⟩
    cases hb
  | cons b rest ih =>
    intro h trials index rng
    rcases h with ⟨b1, hb1, hf⟩
    rcases List.mem_cons.mp hb1 with rfl | hmem
    · obtain ⟨e, he⟩ := buildBlockTrials_fail b1 hf trials index rng
      exact ⟨e, by simp only [buildBlocks, he, exceptBind_err]⟩
    · cases hbt : buildBlockTrials b b.n_trial trials index rng with
      | error e => exact ⟨e, by simp only [buildBlocks, hbt, exceptBind_err]⟩
      | ok v =>
        obtain ⟨trials2, index2, rng2⟩ := v
        obtain ⟨e, he⟩ := ih ⟨b1, hmem, hf⟩ trials2 index2 rng2
        exact ⟨e, by simp only [buildBlocks, hbt, exceptBind_ok, he]⟩

lemma resolveList_missing (dict : List (String × BlockCfg)) :
    ∀ names : List String, (∃ name ∈ names, lookupBlock dict name = none) →
      ∃ e, resolveList dict names = .error e := by
  intro names
  induction names with
  | nil =>
    intro h
    rcases h with ⟨n, hn, _⟩
    cases hn
  | cons name rest ih =>
    intro h
    cases hl : lookupBlock dict name with
    | none => exact ⟨.keyError, by simp only [resolveList, hl]⟩
    | some b =>
      rcases h with ⟨n1, hn1, hmiss⟩
      rcases List.mem_cons.mp hn1 with rfl | hmem
      · rw [hl] at hmiss; cases hmiss
      · obtain ⟨e, he⟩ := ih ⟨n1, hmem, hmiss⟩
        refine ⟨e, ?_⟩
        simp only [resolveList, hl, he]
        rfl

lemma setup_err_of_resolve (t : Task) (rng : Rng) (e : PErr)
    (h : resolveBlocks t.parameters = .error e) : t.setup rng = .error e := by
  unfold Task.setup
  simp only [h, exceptBind_err]

lemma setup_eq_of_resolve (t : Task) (rng : Rng) (bs : List BlockCfg)
    (hres : resolveBlocks t.parameters = .ok bs) :
    t.setup rng =
      (buildBlocks bs
        (List.zipWith (fun tr u => { tr with rnd := u })
          (List.replicate (computeBlocks bs).2 zeroTrial)
          (Rng.uniforms (computeBlocks bs).2 rng).1)
        0 (Rng.uniforms (computeBlocks bs).2 rng).2) >>= (fun v =>
          pure ({ t with
                  blocks := (computeBlocks bs).1,
                  trials := v.1,
                  records := List.replicate (computeBlocks bs).2 zeroRecord }, v.2)) := by
  unfold Task.setup
  simp only [hres, exceptBind_ok]


/-! ### Characterization of a full iteration pass -/

lemma iterLoop_run :
    ∀ (fuel : ℕ) (t : Task) (i stop : Int) (acc : List Trial),
      t.index = some i → t.index_stop = some stop → -1 ≤ i →
      stop ≤ (t.trials.length : Int) → (stop - i).toNat < fuel →
      iterLoop fuel t acc =
        .ok (acc ++ ((t.trials.take stop.toNat).drop (i + 1).toNat),
          { t with index := none, index_start := none, index_stop := none }) := by
  intro fuel
  induction fuel with
  | zero =>
    intro t i stop acc hi hs hlow hstop hfuel
    omega
  | succ n ih =>
    intro t i stop acc hi hs hlow hstop hfuel
    by_cases hlt : i + 1 < stop
    · have h0 : (0 : Int) ≤ i + 1 := by omega
      have hlen : (i + 1).toNat < t.trials.length := by omega
      have hpg : pyGet t.trials (i + 1) = some (t.trials.get ⟨(i + 1).toNat, hlen⟩) := by
        unfold pyGet pyNorm
        rw [if_neg (by omega : ¬ (i + 1) < 0), if_pos (by omega : (0 : Int) ≤ i + 1)]
        exact List.get?_eq_get hlen
      simp only [iterLoop, Task.next, hi, hs, if_pos hlt, hpg]
      rw [ih { t with index := some (i + 1), index_stop := some stop } (i + 1) stop
            (acc ++ [t.trials.get ⟨(i + 1).toNat, hlen⟩]) rfl rfl (by omega)
            (by simpa using hstop) (by omega)]
      have httake : (i + 1).toNat < (t.trials.take stop.toNat).length := by
        rw [List.length_take]; omega
      have hget : (t.trials.take stop.toNat)[(i + 1).toNat] =
          t.trials.get ⟨(i + 1).toNat, hlen⟩ := List.getElem_take ..
      have hdrop : (t.trials.take stop.toNat).drop (i + 1).toNat =
          t.trials.get ⟨(i + 1).toNat, hlen⟩ ::
            (t.trials.take stop.toNat).drop ((i + 1).toNat + 1) := by
        rw [List.drop_eq_getElem_cons httake, hget]
      have hnat : ((i + 1) + 1).toNat = (i + 1).toNat + 1 := by omega
      rw [hdrop, hnat, List.append_assoc]
      rfl
    · simp only [iterLoop, Task.next, hi, hs, if_neg hlt]
      have hnil : (t.trials.take stop.toNat).drop (i + 1).toNat = [] := by
        apply List.drop_eq_nil_of_le
        rw [List.length_take]
        omega
      rw [hnil, List.append_nil]

lemma runFor_of_setup (t : Task) (rng : Rng) (t1 : Task) (rng1 : Rng)
    (hstart : t.index_start = none) (hsetup : t.setup rng = .ok (t1, rng1)) :
    t.runFor rng =
      .ok (t1.trials,
        { t1 with index := none, index_start := none, index_stop := none }, rng1) := by
  unfold Task.runFor Task.iter
  simp only [hstart, hsetup, exceptBind_ok, exceptPure]
  rw [iterLoop_run _ _ (-1) (t1.trials.length : Int) [] rfl rfl (by omega) (by simp) (by omega)]
  simp only [exceptBind_ok, exceptPure]
  congr 1
  simp [Int.toNat_ofNat, List.take_length]

/-! ### Claims -/

/-- C4: for every trial and every choice strictly below zero, `process`
returns reward 0, cue −1, best false, records valid = 0, and performs no
stochastic comparison (the trial's `rnd` and `rwd` are universally
quantified and never consulted: the outcome is the same for all of
them). -/
theorem C4_negative_choice_defaults (t : Task) (tr : Trial) (choice : Int) (RT : ℚ)
    (model : Option ModelState) (i : Int) (j : ℕ)
    (hneg : choice < 0) (hi : t.index = some i)
    (hj : pyNatIdx t.records.length i = some j) :
    t.process tr choice RT model =
      .ok (recordAt t j choice (-1) false false RT 0 model, (0, -1, false)) ∧
    ((recordAt t j choice (-1) false false RT 0 model).records.getD j zeroRecord).valid = 0 := by
  constructor
  · exact process_eq t tr choice RT model (-1) false false 0 i j
      (processChoice_neg tr choice hneg) hi hj
  · have hjlt : j < t.records.length := pyNatIdx_lt _ _ _ hj
    cases model with
    | none =>
      simp [recordAt, List.getD_eq_getElem?_getD, List.getElem?_set_self, hjlt, boolQ]
    | some m =>
      simp [recordAt, List.getD_eq_getElem?_getD, List.getElem?_set_self, hjlt, boolQ]

/-- C4 witness: the defaults at the concrete example trial and task. -/
theorem C4_negative_choice_defaults_witness :
    egTask.process egTrial (-1) 0 none =
      .ok (recordAt egTask 0 (-1) (-1) false false 0 0 none, (0, -1, false)) ∧
    ((recordAt egTask 0 (-1) (-1) false false 0 0 none).records.getD 0 zeroRecord).valid = 0 :=
  C4_negative_choice_defaults egTask egTrial (-1) 0 none 0 0 (by decide) rfl rfl

/-- C5: for a non-negative valid choice whose association column holds the
unique cue `c`, the returned cue is `c` and the returned reward is 1
exactly when the trial's pre-drawn `rnd` is strictly below `rwd c`. -/
theorem C5_reward_threshold (t : Task) (tr : Trial) (choice : Int) (RT : ℚ)
    (model : Option ModelState) (j c : Fin 4) (i : Int) (jn : ℕ)
    (t1 : Task) (reward : ℚ) (cue : Int) (best : Bool)
    (h0 : ¬ choice < 0) (hj : pyIdx4 choice = some j) (hvalid : tr.mot j = 1)
    (hc : (List.finRange 4).filter (fun r => decide (tr.ass r j ≠ 0)) = [c])
    (hi : t.index = some i) (hjn : pyNatIdx t.records.length i = some jn)
    (h : t.process tr choice RT model = .ok (t1, (reward, cue, best))) :
    cue = (c.val : Int) ∧ (reward = 1 ↔ tr.rnd < tr.rwd c) := by
  have hpc := processChoice_pos tr choice j c h0 hj hc
  rw [process_eq t tr choice RT model (c.val : Int) _ _ _ i jn hpc hi hjn] at h
  simp only [Except.ok.injEq, Prod.mk.injEq] at h
  obtain ⟨-, hr, hcue, -⟩ := h
  refine ⟨hcue.symm, ?_⟩
  rw [← hr]
  by_cases hlt : tr.rnd < tr.rwd c
  · simp [hlt]
  · simp [hlt]

attribute [local semireducible] Rat.add Rat.mul Rat.inv Rat.sub Rat.ofScientific in
/-- C5 witness: at the example trial, choice 1 resolves to cue 0 and the
reward is 1 since rnd = 0.3 < 0.8 = rwd 0. -/
theorem C5_reward_threshold_witness :
    egOut1.2.2.1 = ((0 : Fin 4).val : Int) ∧ (egOut1.2.1 = 1 ↔ egTrial.rnd < egTrial.rwd 0) :=
  C5_reward_threshold egTask egTrial 1 0 none 1 0 0 0 egOut1.1 egOut1.2.1 egOut1.2.2.1
    egOut1.2.2.2 (by decide) (by decide) (by decide) (by decide) rfl rfl (by rfl)

/-- C10: scoping iteration to a block via `Task.block` changes only the
cursor fields: the reported length and every random-access lookup over
the whole trial sequence are unchanged. -/
theorem C10_block_scope_len (t : Task) (bi : Int) (t1 : Task) (h : t.block bi = some t1) :
    t1.len = t.len ∧ ∀ j : Int, t1.getitem j = t.getitem j := by
  unfold Task.block at h
  cases hpg : pyGet t.blocks bi with
  | none => rw [hpg] at h; cases h
  | some se =>
    rw [hpg] at h
    simp only [Option.some.injEq] at h
    rw [← h]
    exact ⟨rfl, fun j => rfl⟩

/-- C10 witness: scoping the concrete five-trial task to block 1. -/
theorem C10_block_scope_len_witness :
    c10t1.len = c10task.len ∧ ∀ j : Int, c10t1.getitem j = c10task.getitem j :=
  C10_block_scope_len c10task 1 c10t1 rfl

attribute [local semireducible] Rat.add Rat.mul Rat.inv Rat.sub Rat.ofScientific in
/-- C2 is false as stated: at the §8 example trial, choosing position 0
(not marked in `mot`, its association column empty) does not return
normally with the valid=false defaults — the `assert len(cues) == 1`
fails and `process` raises `AssertionError`. -/
theorem C2_invalid_choice_counterexample :
    egTask.process egTrial 0 0 none = .error .assertionError := by rfl

/-- C2 (amended): for every generator-produced trial, every non-negative
in-range choice at a position not marked in `mot` has an empty
association column, so the cue lookup's `assert len(cues) == 1` fails:
`process` raises `AssertionError` instead of skipping to the
valid=false defaults. -/
theorem C2_invalid_choice_asserts (b : BlockCfg) (tr0 : Trial) (rng rng1 : Rng) (tr : Trial)
    (h0a : ∀ r c, tr0.ass r c = 0)
    (hb : buildTrial b tr0 rng = .ok (tr, rng1))
    (choice : Int) (j : Fin 4) (hpos : ¬ choice < 0) (hj : pyIdx4 choice = some j)
    (hm : tr.mot j ≠ 1)
    (t : Task) (RT : ℚ) (model : Option ModelState) :
    t.process tr choice RT model = .error .assertionError := by
  obtain ⟨cs, ps, rngm, cf, pf, rw1, hc1, hc2, hcf, hpf, hrw, htr⟩ :=
    buildTrial_inv b tr0 rng tr rng1 hb
  have hjn : j ∉ pf := by
    intro hjp
    apply hm
    rw [htr]
    show setVec tr0.mot pf j = 1
    rw [setVec_apply, if_pos hjp]
  have hcol : ∀ r, tr.ass r j = 0 := by
    intro r
    rw [htr]
    show setAss tr0.ass (cf.zip pf) r j = 0
    rw [setAss_apply, if_neg, h0a]
    intro hmem
    exact hjn (List.of_mem_zip hmem).2
  have hfilter : (List.finRange 4).filter (fun r => decide (tr.ass r j ≠ 0)) = [] := by
    apply List.filter_eq_nil_iff.mpr
    intro a _
    simp [hcol a]
  exact process_err t tr choice RT model .assertionError
    (processChoice_assert tr choice j hpos hj hfilter)

attribute [local semireducible] Rat.add Rat.mul Rat.inv Rat.sub Rat.ofScientific in
/-- C2 witness: the concrete generated trial leaves position 3 unmarked;
processing choice 3 raises the assertion failure. -/
theorem C2_invalid_choice_asserts_witness :
    egTask.process egBuild.1 3 0 none = .error .assertionError :=
  C2_invalid_choice_asserts egBlock zeroTrial egRng egBuild.2 egBuild.1
    (fun _ _ => rfl) (by rfl) 3 3 (by decide) (by decide) (by decide)
    egTask 0 none


/-- C9: a successful `process` call changes exactly the record slot at the
resolved cursor index: the trial sequence, all cursor fields, the
parameters, the block ranges, the record count and every other record
slot are unchanged. -/
theorem C9_process_frame (t : Task) (tr : Trial) (choice : Int) (RT : ℚ)
    (model : Option ModelState) (i : Int) (jn : ℕ) (t1 : Task) (outv : ℚ × Int × Bool)
    (hi : t.index = some i) (hjn : pyNatIdx t.records.length i = some jn)
    (h : t.process tr choice RT model = .ok (t1, outv)) :
    t1.trials = t.trials ∧ t1.index = t.index ∧ t1.index_start = t.index_start ∧
    t1.index_stop = t.index_stop ∧ t1.blocks = t.blocks ∧
    t1.parameters = t.parameters ∧ t1.records.length = t.records.length ∧
    ∀ k, k ≠ jn → t1.records.get? k = t.records.get? k := by
  cases hpc : processChoice tr choice with
  | error e => rw [process_err t tr choice RT model e hpc] at h; cases h
  | ok v =>
    obtain ⟨cue, valid, best, reward⟩ := v
    rw [process_eq t tr choice RT model cue valid best reward i jn hpc hi hjn] at h
    simp only [Except.ok.injEq, Prod.mk.injEq] at h
    obtain ⟨h1, -⟩ := h
    rw [← h1]
    refine ⟨rfl, rfl, rfl, rfl, rfl, rfl, ?_, ?_⟩
    · simp [recordAt]
    · intro k hk
      show (t.records.set jn _).get? k = t.records.get? k
      rw [List.get?_eq_getElem?, List.get?_eq_getElem?,
        List.getElem?_set_ne (fun hje => hk hje.symm)]

attribute [local semireducible] Rat.add Rat.mul Rat.inv Rat.sub Rat.ofScientific in
/-- C9 witness: processing the example trial at choice 1 touches only
record slot 0. -/
theorem C9_process_frame_witness :
    egOut1.1.trials = egTask.trials ∧ egOut1.1.index = egTask.index ∧
    egOut1.1.index_start = egTask.index_start ∧
    egOut1.1.index_stop = egTask.index_stop ∧ egOut1.1.blocks = egTask.blocks ∧
    egOut1.1.parameters = egTask.parameters ∧
    egOut1.1.records.length = egTask.records.length ∧
    ∀ k, k ≠ 0 → egOut1.1.records.get? k = egTask.records.get? k :=
  C9_process_frame egTask egTrial 1 0 none 0 0 egOut1.1
    (egOut1.2.1, egOut1.2.2.1, egOut1.2.2.2) rfl rfl (by rfl)

/-- C7: for a non-negative choice resolving to cue `c`, with `c` present
in `cog`, a 0/1-valued `cog` and non-negative reward probabilities, the
returned `best` is true exactly when `rwd c` is maximal among the
reward probabilities of the cues marked present in `cog` (ties count as
best). -/
theorem C7_best_flag (t : Task) (tr : Trial) (choice : Int) (RT : ℚ)
    (model : Option ModelState) (j c : Fin 4) (i : Int) (jn : ℕ)
    (t1 : Task) (reward : ℚ) (cue : Int) (best : Bool)
    (h0 : ¬ choice < 0) (hj : pyIdx4 choice = some j) (hvalid : tr.mot j = 1)
    (hc : (List.finRange 4).filter (fun r => decide (tr.ass r j ≠ 0)) = [c])
    (hcog : tr.cog c = 1) (hcog01 : ∀ k, tr.cog k = 0 ∨ tr.cog k = 1)
    (hrwd : ∀ k, 0 ≤ tr.rwd k)
    (hi : t.index = some i) (hjn : pyNatIdx t.records.length i = some jn)
    (h : t.process tr choice RT model = .ok (t1, (reward, cue, best))) :
    best = true ↔ ∀ k, tr.cog k = 1 → tr.rwd k ≤ tr.rwd c := by
  have hpc := processChoice_pos tr choice j c h0 hj hc
  rw [process_eq t tr choice RT model (c.val : Int) _ _ _ i jn hpc hi hjn] at h
  simp only [Except.ok.injEq, Prod.mk.injEq] at h
  obtain ⟨-, -, -, hbest⟩ := h
  rw [← hbest, decide_eq_true_eq]
  have hpcc : tr.cog c * tr.rwd c = tr.rwd c := by rw [hcog, one_mul]
  constructor
  · intro hmax k hk
    have hmem : tr.cog k * tr.rwd k ∈
        (List.finRange 4).map (fun k => tr.cog k * tr.rwd k) :=
      List.mem_map_of_mem _ (List.mem_finRange k)
    have hle := le_listMax _ _ hmem
    rw [hmax, hpcc] at hle
    rw [hk, one_mul] at hle
    exact hle
  · intro hall
    have hne : (List.finRange 4).map (fun k => tr.cog k * tr.rwd k) ≠ [] := by
      simp [List.finRange]
    have hub : tr.cog c * tr.rwd c ≤
        listMax ((List.finRange 4).map (fun k => tr.cog k * tr.rwd k)) :=
      le_listMax _ _ (List.mem_map_of_mem _ (List.mem_finRange c))
    have hlb : listMax ((List.finRange 4).map (fun k => tr.cog k * tr.rwd k)) ≤
        tr.cog c * tr.rwd c := by
      obtain ⟨k, -, hk⟩ := List.mem_map.mp (listMax_mem _ hne)
      rw [← hk, hpcc]
      rcases hcog01 k with h01 | h01
      · rw [h01, zero_mul]
        exact hrwd c
      · rw [h01, one_mul]
        exact hall k h01
    exact le_antisymm hlb hub

attribute [local semireducible] Rat.add Rat.mul Rat.inv Rat.sub Rat.ofScientific in
/-- C7 witness: at the example trial, choice 1 resolves to cue 0 whose
reward probability 0.8 is maximal among present cues {0, 2}. -/
theorem C7_best_flag_witness :
    egOut1.2.2.2 = true ↔ ∀ k, egTrial.cog k = 1 → egTrial.rwd k ≤ egTrial.rwd 0 :=
  C7_best_flag egTask egTrial 1 0 none 1 0 0 0 egOut1.1 egOut1.2.1 egOut1.2.2.1
    egOut1.2.2.2 (by decide) (by decide) (by decide) (by decide) (by decide)
    (by decide) (by decide) rfl rfl (by rfl)


/-- C8: for every configuration accepted by `setup`, the generated trial
sequence and the parallel record sequence both have length exactly the
sum of the per-block `n_trial` values. -/
theorem C8_total_length (t : Task) (rng : Rng) (bs : List BlockCfg) (t1 : Task) (rng1 : Rng)
    (hres : resolveBlocks t.parameters = .ok bs)
    (h : t.setup rng = .ok (t1, rng1)) :
    t1.trials.length = (bs.map BlockCfg.n_trial).sum ∧
    t1.records.length = (bs.map BlockCfg.n_trial).sum := by
  rw [setup_eq_of_resolve t rng bs hres] at h
  cases hbb : buildBlocks bs
      (List.zipWith (fun tr u => { tr with rnd := u })
        (List.replicate (computeBlocks bs).2 zeroTrial)
        (Rng.uniforms (computeBlocks bs).2 rng).1)
      0 (Rng.uniforms (computeBlocks bs).2 rng).2 with
  | error e => simp only [hbb, exceptBind_err] at h; cases h
  | ok v =>
    obtain ⟨trials2, rng2⟩ := v
    simp only [hbb, exceptBind_ok, exceptPure, Except.ok.injEq, Prod.mk.injEq] at h
    obtain ⟨h1, -⟩ := h
    rw [← h1]
    constructor
    · show trials2.length = _
      rw [buildBlocks_length bs _ 0 _ trials2 rng2 hbb]
      rw [List.length_zipWith, List.length_replicate, uniforms_length,
        computeBlocks_total, min_self]
    · show (List.replicate (computeBlocks bs).2 zeroRecord).length = _
      rw [List.length_replicate, computeBlocks_total]

attribute [local semireducible] Rat.add Rat.mul Rat.inv Rat.sub Rat.ofScientific in
/-- C8 witness: the concrete one-block configuration yields one trial and
one record. -/
theorem C8_total_length_witness :
    egSetupRes.1.trials.length = ([egBlock].map BlockCfg.n_trial).sum ∧
    egSetupRes.1.records.length = ([egBlock].map BlockCfg.n_trial).sum :=
  C8_total_length (Task.mk0 egParams) egRng [egBlock] egSetupRes.1 egSetupRes.2
    rfl (by rfl)

/-- C3 is false as stated: a configuration whose (only) block has a
malformed all-zero cue-weight vector but zero trials loads without any
error (`Task.init` succeeds), because weight validation only happens
when a trial is actually sampled. -/
theorem C3_malformed_config_counterexample :
    exceptOk (Task.init c3params { us := [], ns := [] }) = true := by rfl

/-- C3 (amended): `setup` raises an exception (a `KeyError`, not a
dedicated ConfigError) whenever a session block name is missing; and it
raises a sampling-time `ValueError` for a malformed cue-weight vector
(zero-sum/NaN, negative normalized entries, or fewer positive-weight
slots than `n_cue`, including `n_cue` exceeding the slot count) only
when that block has at least one trial. -/
theorem C3_setup_failure (t : Task) (rng : Rng)
    (h : (∃ name ∈ t.parameters.session, lookupBlock t.parameters.blocks name = none) ∨
         (∃ bs, resolveBlocks t.parameters = .ok bs ∧ ∃ b ∈ bs, blockFaulty b)) :
    ∃ e, t.setup rng = .error e := by
  rcases h with hmiss | ⟨bs, hbs, hfault⟩
  · obtain ⟨e, he⟩ := resolveList_missing t.parameters.blocks t.parameters.session hmiss
    exact ⟨e, setup_err_of_resolve t rng e he⟩
  · rw [setup_eq_of_resolve t rng bs hbs]
    obtain ⟨e, he⟩ := buildBlocks_fail bs hfault
      (List.zipWith (fun tr u => { tr with rnd := u })
        (List.replicate (computeBlocks bs).2 zeroTrial)
        (Rng.uniforms (computeBlocks bs).2 rng).1)
      0 (Rng.uniforms (computeBlocks bs).2 rng).2
    exact ⟨e, by simp only [he, exceptBind_err]⟩

/-- C3 witness: a session referencing the missing block name X makes
`setup` raise. -/
theorem C3_setup_failure_witness :
    ∃ e, (Task.mk0 c3missing).setup { us := [], ns := [] } = .error e :=
  C3_setup_failure (Task.mk0 c3missing) { us := [], ns := [] }
    (Or.inl ⟨"X", by simp [c3missing, Task.mk0], rfl⟩)

/-- C6: every trial built by the generator satisfies the invariants: the
two samples are duplicate-free, `ass` has exactly `n_cue` ones, the rows
holding a one are exactly the cue slots marked in `cog`, and the columns
holding a one are exactly the positions marked in `mot`. -/
theorem C6_trial_invariants (b : BlockCfg) (tr0 : Trial) (rng rng2 : Rng) (tr : Trial)
    (h0c : ∀ k, tr0.cog k = 0) (h0m : ∀ k, tr0.mot k = 0) (h0a : ∀ r c, tr0.ass r c = 0)
    (hb : buildTrial b tr0 rng = .ok (tr, rng2)) :
    ∃ cs ps rng1,
      npChoice b.cue.length (b.n_cue.getD 2) (normWeights b.cue) rng = .ok (cs, rng1) ∧
      npChoice b.cue.length (b.n_cue.getD 2) (normWeights b.pos) rng1 = .ok (ps, rng2) ∧
      cs.Nodup ∧ ps.Nodup ∧
      onesCount tr = b.n_cue.getD 2 ∧
      (∀ r, tr.cog r = 1 ↔ ∃ c, tr.ass r c = 1) ∧
      (∀ c, tr.mot c = 1 ↔ ∃ r, tr.ass r c = 1) := by
  obtain ⟨cs, ps, rng1, cf, pf, rw1, hc1, hc2, hcf, hpf, hrw, htr⟩ :=
    buildTrial_inv b tr0 rng tr rng2 hb
  obtain ⟨hlen1, hnd1, -⟩ := npChoice_ok _ _ _ _ _ _ hc1
  obtain ⟨hlen2, hnd2, -⟩ := npChoice_ok _ _ _ _ _ _ hc2
  have hcflen : cf.length = b.n_cue.getD 2 := by rw [toFin4_length cs cf hcf, hlen1]
  have hpflen : pf.length = b.n_cue.getD 2 := by rw [toFin4_length ps pf hpf, hlen2]
  have hcfnd : cf.Nodup := toFin4_nodup cs cf hcf hnd1
  have hpfnd : pf.Nodup := toFin4_nodup ps pf hpf hnd2
  have hass : ∀ r c, tr.ass r c = if (r, c) ∈ cf.zip pf then 1 else 0 := by
    intro r c
    rw [htr]
    show setAss tr0.ass (cf.zip pf) r c = _
    rw [setAss_apply]
    by_cases hm : (r, c) ∈ cf.zip pf
    · rw [if_pos hm, if_pos hm]
    · rw [if_neg hm, if_neg hm, h0a]
  have hcog : ∀ r, tr.cog r = if r ∈ cf then 1 else 0 := by
    intro r
    rw [htr]
    show setVec tr0.cog cf r = _
    rw [setVec_apply]
    by_cases hm : r ∈ cf
    · rw [if_pos hm, if_pos hm]
    · rw [if_neg hm, if_neg hm, h0c]
  have hmot : ∀ c, tr.mot c = if c ∈ pf then 1 else 0 := by
    intro c
    rw [htr]
    show setVec tr0.mot pf c = _
    rw [setVec_apply]
    by_cases hm : c ∈ pf
    · rw [if_pos hm, if_pos hm]
    · rw [if_neg hm, if_neg hm, h0m]
  have hassmem : ∀ r c, tr.ass r c = 1 ↔ (r, c) ∈ cf.zip pf := by
    intro r c
    rw [hass]
    by_cases hm : (r, c) ∈ cf.zip pf
    · simp [hm]
    · simp [hm]
  refine ⟨cs, ps, rng1, hc1, hc2, hnd1, hnd2, ?_, ?_, ?_⟩
  · have hzipnd : (cf.zip pf).Nodup := by
      have hfst : (cf.zip pf).map Prod.fst = cf := List.map_fst_zip cf pf (by omega)
      have hmapnd : ((cf.zip pf).map Prod.fst).Nodup := by rw [hfst]; exact hcfnd
      exact List.Nodup.of_map Prod.fst hmapnd
    have hfe : ((Finset.univ : Finset (Fin 4 × Fin 4)).filter
        (fun rc => tr.ass rc.1 rc.2 = 1)) = (cf.zip pf).toFinset := by
      ext rc
      obtain ⟨r, c⟩ := rc
      simp only [Finset.mem_filter, Finset.mem_univ, true_and, List.mem_toFinset,
        hassmem r c]
    rw [onesCount, hfe, List.toFinset_card_of_nodup hzipnd, List.length_zip]
    omega
  · intro r
    rw [hcog]
    by_cases hm : r ∈ cf
    · rw [if_pos hm]
      simp only [true_iff, eq_self_iff_true]
      obtain ⟨idx, hidx, hget⟩ := List.mem_iff_getElem.mp hm
      have hplen : idx < pf.length := by omega
      have hzl : idx < (cf.zip pf).length := by rw [List.length_zip]; omega
      refine ⟨pf[idx], ?_⟩
      rw [hassmem]
      have hze : (cf.zip pf)[idx] = (cf[idx], pf[idx]) := List.getElem_zip ..
      rw [← hget]
      rw [← hze]
      exact List.getElem_mem hzl
    · rw [if_neg hm]
      constructor
      · intro h01
        exact absurd h01.symm one_ne_zero
      · rintro ⟨c, hc⟩
        rw [hassmem] at hc
        exact absurd (List.of_mem_zip hc).1 hm
  · intro c
    rw [hmot]
    by_cases hm : c ∈ pf
    · rw [if_pos hm]
      simp only [true_iff, eq_self_iff_true]
      obtain ⟨idx, hidx, hget⟩ := List.mem_iff_getElem.mp hm
      have hclen : idx < cf.length := by omega
      have hzl : idx < (cf.zip pf).length := by rw [List.length_zip]; omega
      refine ⟨cf[idx], ?_⟩
      rw [hassmem]
      have hze : (cf.zip pf)[idx] = (cf[idx], pf[idx]) := List.getElem_zip ..
      rw [← hget]
      rw [← hze]
      exact List.getElem_mem hzl
    · rw [if_neg hm]
      constructor
      · intro h01
        exact absurd h01.symm one_ne_zero
      · rintro ⟨r, hr⟩
        rw [hassmem] at hr
        exact absurd (List.of_mem_zip hr).2 hm

attribute [local semireducible] Rat.add Rat.mul Rat.inv Rat.sub Rat.ofScientific in
/-- C6 witness: the invariants at the concrete generated trial. -/
theorem C6_trial_invariants_witness :
    ∃ cs ps rng1,
      npChoice egBlock.cue.length (egBlock.n_cue.getD 2) (normWeights egBlock.cue)
        egRng = .ok (cs, rng1) ∧
      npChoice egBlock.cue.length (egBlock.n_cue.getD 2) (normWeights egBlock.pos)
        rng1 = .ok (ps, egBuild.2) ∧
      cs.Nodup ∧ ps.Nodup ∧
      onesCount egBuild.1 = egBlock.n_cue.getD 2 ∧
      (∀ r, egBuild.1.cog r = 1 ↔ ∃ c, egBuild.1.ass r c = 1) ∧
      (∀ c, egBuild.1.mot c = 1 ↔ ∃ r, egBuild.1.ass r c = 1) :=
  C6_trial_invariants egBlock zeroTrial egRng egBuild.2 egBuild.1
    (fun _ => rfl) (fun _ => rfl) (fun _ _ => rfl) (by rfl)


attribute [local semireducible] Rat.add Rat.mul Rat.inv Rat.sub Rat.ofScientific in
/-- C1 is false as stated: on a concrete task, fully iterating and then
iterating again yields two different trial sequences (both passes
succeed, and the sequences differ), because `__iter__` re-runs `setup`,
which redraws the batched random values and resamples every trial. -/
theorem C1_repeat_iteration_counterexample : c1differs = true := by rfl

/-- C1 (amended): iteration is restartable in the cursor sense — a full
`for trial in task` pass over a task with an unset cursor visits, in
order, exactly the trials of the array built by the `setup` call that
the pass itself triggers, and ends with the cursor cleared; but the
trials are freshly regenerated by that `setup`, so two consecutive
passes agree only if their random draws do (see the counterexample). -/
theorem C1_iteration_fresh_setup (t : Task) (rng : Rng) (t1 : Task) (rng1 : Rng)
    (hstart : t.index_start = none) (hsetup : t.setup rng = .ok (t1, rng1)) :
    t.runFor rng =
      .ok (t1.trials,
        { t1 with index := none, index_start := none, index_stop := none }, rng1) :=
  runFor_of_setup t rng t1 rng1 hstart hsetup

attribute [local semireducible] Rat.add Rat.mul Rat.inv Rat.sub Rat.ofScientific in
/-- C1 witness: one concrete full pass visits exactly the freshly built
trial array. -/
theorem C1_iteration_fresh_setup_witness :
    (Task.mk0 egParams).runFor egRng =
      .ok (egSetupRes.1.trials,
        { egSetupRes.1 with index := none, index_start := none, index_stop := none },
        egSetupRes.2) :=
  C1_iteration_fresh_setup (Task.mk0 egParams) egRng egSetupRes.1 egSetupRes.2 rfl (by rfl)

end Bandit
